import Mathlib

/- Verification development for the component runtime glue of the V4Fire
   client core (src/unnamed/part_000): the metadata store (createMeta), the
   field initializer (initDataObject), the hook runner (runHook together
   with its synchronous fake promise createSyncPromise) and the watcher
   binder (bindWatchers).  JavaScript dictionaries are embedded as
   insertion-ordered association lists, JS `undefined` as `Option`,
   exceptions as `Except`, and the unbounded `while (true)` sweep of
   initDataObject as a fuel-indexed loop whose `none` outcome means the
   source loops forever. -/

set_option maxRecDepth 8000

/-! ### Association-list helpers (JS dictionary semantics) -/

/-- Property read `o[k]` on a JS object: first binding wins, `none` = absent. -/
def aget {κ α : Type} [DecidableEq κ] : List (κ × α) → κ → Option α
  | [], _ => none
  | (k, v) :: l, k' => if k' = k then some v else aget l k'

/-- Property write `o[k] = v`: updates the existing binding in place, or
appends a new binding at the end (JS insertion order). -/
def aset {κ α : Type} [DecidableEq κ] : List (κ × α) → κ → α → List (κ × α)
  | [], k, v => [(k, v)]
  | (k0, v0) :: l, k, v => if k = k0 then (k0, v) :: l else (k0, v0) :: aset l k v

/-- `Set#add`: appends the element unless it is already present. -/
def insertUniq (l : List String) (k : String) : List String :=
  if k ∈ l then l else l ++ [k]

theorem aget_aset_ne {κ α : Type} [DecidableEq κ] (l : List (κ × α)) (k k' : κ) (v : α)
    (h : k' ≠ k) : aget (aset l k v) k' = aget l k' := by
  induction l with
  | nil => simp [aset, aget, h]
  | cons kv l ih =>
    obtain ⟨k0, v0⟩ := kv
    by_cases hk : k = k0
    · subst hk; simp [aset, aget, h]
    · simp only [aset, if_neg hk, aget]
      by_cases hk' : k' = k0
      · simp [hk']
      · simp [hk', ih]

theorem aget_aset_self {κ α : Type} [DecidableEq κ] (l : List (κ × α)) (k : κ) (v : α) :
    aget (aset l k v) k = some v := by
  induction l with
  | nil => simp [aset, aget]
  | cons kv l ih =>
    obtain ⟨k0, v0⟩ := kv
    by_cases hk : k = k0
    · subst hk; simp [aset, aget]
    · simp [aset, if_neg hk, aget, hk, ih]

theorem mem_insertUniq (l : List String) (k x : String) (h : x ∈ l) :
    x ∈ insertUniq l k := by
  unfold insertUniq
  split
  · exact h
  · exact List.mem_append_left _ h

theorem self_mem_insertUniq (l : List String) (k : String) : k ∈ insertUniq l k := by
  unfold insertUniq
  split
  · assumption
  · exact List.mem_append_right _ (List.mem_singleton.mpr rfl)

theorem insertUniq_ne_nil (l : List String) (k : String) : insertUniq l k ≠ [] := by
  intro h
  exact (List.ne_nil_of_mem (self_mem_insertUniq l k)) h

/-! ### Runtime values

JS runtime values.  `prim` is a primitive (copied by value, so a deep clone
of a primitive is the primitive itself); `obj i` is a reference to a heap
object with identity `i`; `clone v` is a fresh deep copy of `v`.  Equality
of `Val` models JS `===`: a deep copy of an object is structurally equal to
but not identical with its source, which `clone v ≠ v` captures. -/

inductive Val : Type where
  | prim (n : Int)
  | obj (id : Nat)
  | clone (v : Val)
deriving DecidableEq, Repr

/-- Modelled from the spec: `Object.fastClone` (a boundary utility outside
src/) performs a deep clone; primitives are returned unchanged, objects
yield an identity-distinct copy. -/
def fastClone : Val → Val
  | .prim n => .prim n
  | v => .clone v

/-! ### FieldD initializer: initDataObject (src/unnamed/part_000 lines 452-552)

A data object maps keys to `Option Val`: a binding `(k, none)` is the JS
state "property k present with value undefined" (`k in data` is true but
`data[k] === undefined`), while no binding at all means `k in data` is
false.  The `ctx` argument of the source is only written to
(`ctx.$activeField`) on the paths the claims concern, so it is elided;
`init` receives the data object, as in the source. -/

abbrev DataMap := List (String × Option Val)

structure FieldD : Type where
  atom : Bool
  after : List String
  init : Option (DataMap → Option Val)
  dflt : Option Val

abbrev FieldMap := List (String × FieldD)

inductive IErr : Type where
  | missingField (key dep : String)
  | atomDep (key dep : String)
deriving DecidableEq, Repr

structure DState : Type where
  data : DataMap
  queue : List String
  atomQueue : List String
deriving DecidableEq, Repr

inductive DepRes : Type where
  | err (e : IErr)
  | blocked
  | okAll
deriving DecidableEq, Repr

/-- The inner `for (el.after.values())` loop of initDataObject: walks the
`after` set in order; an undeclared dependency raises a ReferenceError, an
atom waiting on a non-atom raises an Error, a dependency not yet in `data`
blocks the field (break), otherwise the walk continues. -/
def checkAfter (fields : FieldMap) (el : FieldD) (key : String) (data : DataMap) :
    List String → DepRes
  | [] => .okAll
  | dep :: rest =>
    match aget fields dep with
    | none => .err (.missingField key dep)
    | some w =>
      if el.atom && !w.atom then .err (.atomDep key dep)
      else if (aget data dep).isNone then .blocked
      else checkAfter fields el key data rest

/-- The `if (canInit)` body: deletes the key from both queues, runs `init`,
and stores the result — an `undefined` init result falls back (only when
`data[key] === undefined`) to the static default, or, absent a default, to a
deep clone of the instance value. -/
def initField (inst : List (String × Val)) (st : DState) (key : String) (el : FieldD) :
    DState :=
  let queue := st.queue.erase key
  let atomQueue := st.atomQueue.erase key
  let v : Option Val := match el.init with
    | some f => f st.data
    | none => none
  match v with
  | some v => ⟨aset st.data key (some v), queue, atomQueue⟩
  | none =>
    match aget st.data key with
    | some (some _) => ⟨st.data, queue, atomQueue⟩
    | _ =>
      let fb : Option Val := match el.dflt with
        | some d => some d
        | none => (aget inst key).map fastClone
      ⟨aset st.data key fb, queue, atomQueue⟩

/-- One iteration of the `for (fieldList)` loop body for a single key. -/
def processOne (fields : FieldMap) (inst : List (String × Val)) (st : DState)
    (key : String) : Except (IErr × DataMap) DState :=
  if (aget st.data key).isSome then .ok st
  else
    match aget fields key with
    | none => .ok st
    | some el =>
      match checkAfter fields el key st.data el.after with
      | .err e => .error (e, st.data)
      | .blocked =>
        .ok ⟨st.data, insertUniq st.queue key,
             if el.atom then insertUniq st.atomQueue key else st.atomQueue⟩
      | .okAll =>
        if el.atom || st.atomQueue.isEmpty then .ok (initField inst st key el)
        else .ok st

/-- One full sweep of the field list (the body of `while (true)`). -/
def sweep (fields : FieldMap) (inst : List (String × Val)) :
    DState → List String → Except (IErr × DataMap) DState
  | st, [] => .ok st
  | st, k :: ks =>
    match processOne fields inst st k with
    | .error e => .error e
    | .ok st' => sweep fields inst st' ks

/-- The "sorting atoms" pass: atoms, and fields with no custom `init` whose
value comes from a default or from the instance, are unshifted to the front
of the field list; everything else is pushed to the back. -/
def atomLike (inst : List (String × Val)) (key : String) (el : FieldD) : Bool :=
  el.atom || (el.init.isNone && (el.dflt.isSome || (aget inst key).isSome))

def fieldListOf (inst : List (String × Val)) (fields : FieldMap) : List String :=
  fields.foldl
    (fun acc kv => if atomLike inst kv.1 kv.2 then kv.1 :: acc else acc ++ [kv.1]) []

/-- The `while (true)` sweep loop with fuel: `none` means the source loops
forever; the loop exits only when both the dependency queue and the atomic
queue are empty at the end of a sweep. -/
def initLoop (fields : FieldMap) (inst : List (String × Val)) (fl : List String) :
    Nat → DState → Option (Except (IErr × DataMap) DataMap)
  | 0, _ => none
  | n + 1, st =>
    match sweep fields inst st fl with
    | .error e => some (.error e)
    | .ok st' =>
      if st'.atomQueue.isEmpty && st'.queue.isEmpty then some (.ok st'.data)
      else initLoop fields inst fl n st'

/-- initDataObject: the thrown configuration errors carry the data object
at the moment of the throw, since the caller passed it by reference and the
writes made before the throw persist. -/
def initDataObject (fields : FieldMap) (inst : List (String × Val)) (data : DataMap)
    (fuel : Nat) : Option (Except (IErr × DataMap) DataMap) :=
  initLoop fields inst (fieldListOf inst fields) fuel ⟨data, [], []⟩

/-! ### Hook runner: runHook (src/unnamed/part_000 lines 562-674)

Hooks registered for one stage.  A hook is identified by its position in
the stage's hook list; `name` is its optional hook name, `after` the set of
predecessor hook names, and `isAsync` tells whether its callback returns a
deferred value (a promise).  The execution is modelled as a small-step
machine producing a trace of `start`/`complete` events:

* registration stores, per waiting hook, the shared mutable pending set
  `el.after` (the source registers the same Set object under every name it
  contains; the prelude's chainable `Set#delete` — code outside src/,
  modelled from the spec — removes the emitted name and yields the set, and
  the callback fires when the set has been emptied);
* hooks whose `after` set is empty are collected into the default queue and
  fired eagerly by `event.fire()` at invocation start;
* a synchronous callback completes on the spot and immediately emits its
  name (an unnamed hook emits a random string nobody listens to, modelled
  as emitting nothing); an asynchronous callback parks in `waitingAsync`
  and its completion is an external event — the `schedule` argument lists
  the order in which pending promises resolve, `res.then(emit)` then emits.

Recursion between a callback run and the emit cascade it triggers is
fuel-indexed, mirroring the source's unbounded recursion. -/

structure HookDef : Type where
  name : Option String
  after : List String
  isAsync : Bool
deriving DecidableEq, Repr

inductive HEv : Type where
  | start (i : Nat)
  | complete (i : Nat)
deriving DecidableEq, Repr

structure RH : Type where
  pend : List (Nat × List String)
  waitingAsync : List Nat
  trace : List HEv
deriving DecidableEq, Repr

/-- Position-indexed enumeration of the stage's hook list. -/
def enumT {α : Type} : Nat → List α → List (Nat × α)
  | _, [] => []
  | s, h :: t => (s, h) :: enumT (s + 1) t

/-- The callback built for one hook (lines 648-663): record the start, run
`el.fn`; a synchronous result completes at once and emits the hook's name
through the supplied `emit` continuation (an unnamed hook emits a random
string nobody listens to, modelled as emitting nothing); a deferred result
parks the hook until its promise resolves. -/
def runCbWith (emit : String → RH → RH) (i : Nat) (el : HookDef) (st : RH) : RH :=
  let st1 : RH := { st with trace := st.trace ++ [.start i] }
  if el.isAsync then { st1 with waitingAsync := st1.waitingAsync ++ [i] }
  else
    let st2 : RH := { st1 with trace := st1.trace ++ [.complete i] }
    match el.name with
    | none => st2
    | some nm => emit nm st2

/-- The listener walk of `event.emit(nm)` (lines 598-623): every hook
listening on `nm`, in registration order, has `nm` deleted from its shared
pending set; when the set empties, its callback runs (cascading through
`emit` one fuel level down). -/
def emitListWith (emit : String → RH → RH) (nm : String) :
    List (Nat × HookDef) → RH → RH
  | [], st => st
  | (i, el) :: rest, st =>
    if nm ∈ el.after then
      let p := ((aget st.pend i).getD []).erase nm
      let st' : RH := { st with pend := aset st.pend i p }
      if p.isEmpty then emitListWith emit nm rest (runCbWith emit i el st')
      else emitListWith emit nm rest st'
    else emitListWith emit nm rest st

/-- `event.emit`, fuel-indexed: the recursion between a callback and the
emits it triggers mirrors the source's unbounded recursion. -/
def emitN (hooks : List HookDef) : Nat → String → RH → RH
  | 0, _, st => st
  | f + 1, nm, st => emitListWith (emitN hooks f) nm (enumT 0 hooks) st

def runCbAux (hooks : List HookDef) (fuel : Nat) (i : Nat) (el : HookDef) (st : RH) :
    RH :=
  runCbWith (emitN hooks fuel) i el st

/-- Registration state: every hook's pending predecessor set.  The source
registers only hooks with a non-empty `after` set as event listeners, but a
hook with an empty set is observationally identical to one registered with
an already-empty pending set, so the table simply tabulates `after`. -/
def pendInit (hooks : List HookDef) : List (Nat × List String) :=
  (enumT 0 hooks).map (fun p => (p.1, p.2.after))

/-- `event.fire()` (lines 625-641 with the default queue built by
`event.on`): hooks with no predecessor fire eagerly, in registration
order, at invocation start. -/
def fireList (hooks : List HookDef) (fuel : Nat) :
    List (Nat × HookDef) → RH → RH
  | [], st => st
  | (i, el) :: rest, st =>
    if el.after.isEmpty then fireList hooks fuel rest (runCbAux hooks fuel i el st)
    else fireList hooks fuel rest st

/-- Resolution of hook `i`'s pending promise: `res.then(emit)` — the
completion is recorded and the hook's name is emitted. -/
def resolveOne (hooks : List HookDef) (fuel : Nat) (st : RH) (i : Nat) : RH :=
  if i ∈ st.waitingAsync then
    let st1 : RH :=
      { st with waitingAsync := st.waitingAsync.erase i,
                trace := st.trace ++ [.complete i] }
    match (hooks[i]?).bind (fun el => el.name) with
    | none => st1
    | some nm => emitN hooks fuel nm st1
  else st

/-- One full stage invocation of runHook's dependency-gated execution:
registration, eager fire of the default queue, then the external promise
resolutions in `schedule` order. -/
def runHookMachine (hooks : List HookDef) (schedule : List Nat) (fuel : Nat) : RH :=
  schedule.foldl (fun st i => resolveOne hooks fuel st i)
    (fireList hooks fuel (enumT 0 hooks) ⟨pendInit hooks, [], []⟩)

/-! ### createSyncPromise (lines 946-964)

The synchronous fake promise is fully determined by its `(val, err)` pair;
`then`/`catch`/`finally` build new fake promises from it.  Callbacks are
modelled as pure functions `Option Val → Option Val` (the source's
try/catch around a throwing callback is not exercised by the claims). -/

structure SyncP : Type where
  val : Option Val
  err : Option Val
deriving DecidableEq, Repr

def createSyncPromise (val err : Option Val) : SyncP := ⟨val, err⟩

/-- `then`: on error runs `reject` and the result becomes the new error; on
success runs `resolve` and the result becomes the new value. -/
def syncThen (p : SyncP) (resolve reject : Option (Option Val → Option Val)) : SyncP :=
  if p.err.isSome then
    createSyncPromise none (match reject with
      | some r => r p.err
      | none => p.err)
  else
    createSyncPromise (match resolve with
      | some r => r p.val
      | none => p.val) none

/-- `catch: (cb) => createSyncPromise(undefined, cb(err))` — the callback
is invoked unconditionally, with the current error (undefined on the
success path). -/
def syncCatch (p : SyncP) (cb : Option Val → Option Val) : SyncP :=
  createSyncPromise none (cb p.err)

/-- `finally: (cb) => createSyncPromise(cb())`. -/
def syncFinally (_p : SyncP) (cb : Unit → Option Val) : SyncP :=
  createSyncPromise (cb ()) none

/-- Modelled from the spec: a real `Promise#catch` never invokes its
callback on a fulfilled promise (the claims contrast the fake promise
against this behaviour). -/
def realCatch (p : SyncP) (cb : Option Val → Option Val) : SyncP :=
  if p.err.isSome then createSyncPromise none (cb p.err) else p

/-- The result of `runHook`: an empty stage hook list short-circuits to a
synchronous already-completed promise before any of the event machinery is
built (lines 577-579); otherwise the dependency-gated machine runs. -/
inductive RunHookRes : Type where
  | sync (p : SyncP)
  | ran (st : RH)
deriving Repr

def runHookTop (hooks : List HookDef) (schedule : List Nat) (fuel : Nat) : RunHookRes :=
  if hooks.isEmpty then .sync (createSyncPromise none none)
  else .ran (runHookMachine hooks schedule fuel)

/-! ### Watcher binder: bindWatchers (lines 308-365)

`customWatcherRgxp = /^([!?]?)([^!?:]*):(.*)/` and the stage gate that
selects which watcher keys are processed during a given lifecycle stage.
The attachment work done per selected watcher (handler wrapping, root
resolution, Async registration) is orthogonal to which keys are selected
and is not modelled. -/

def matchTail (cs : List Char) : Option (String × String) :=
  let l := cs.takeWhile (fun c => c ≠ '!' && c ≠ '?' && c ≠ ':')
  match cs.drop l.length with
  | ':' :: r => some (⟨l⟩, ⟨r⟩)
  | _ => none

/-- `customWatcherRgxp.exec key`: an optional `!`/`?` marker, a run free of
`!?:`, a mandatory colon, and the rest.  Returns (marker, path, tail). -/
def parseCustom (s : String) : Option (String × String × String) :=
  match s.toList with
  | [] => none
  | c :: cs =>
    if c = '!' || c = '?' then (matchTail cs).map (fun p => (String.mk [c], p.1, p.2))
    else (matchTail (c :: cs)).map (fun p => ("", p.1, p.2))

/-- The marker of a watcher key: `none` for an ordinary reactive key (no
regex match), `some m` with `m` one of "", "!", "?" for a custom key. -/
def markerOf (s : String) : Option String := (parseCustom s).map (fun p => p.1)

/-- The per-key stage gate of bindWatchers: mirrors the early return on a
foreign stage and the `continue` condition of lines 358-365. -/
def bindSelect (hook key : String) : Bool :=
  if hook = "beforeCreate" || hook = "created" || hook = "mounted" then
    let onBeforeCreate : Bool := match parseCustom key with
      | some (m, _, _) => m = "!"
      | none => false
    let onMounted : Bool := match parseCustom key with
      | some (m, _, _) => m = "?"
      | none => false
    let isB : Bool := hook = "beforeCreate"
    let isC : Bool := hook = "created"
    let isM : Bool := hook = "mounted"
    !((isB && !onBeforeCreate) || (isC && (onMounted || onBeforeCreate)) ||
      (isM && !onMounted))
  else false

/-- The watcher keys whose watcher lists are walked and attached when
bindWatchers runs at stage `hook`. -/
def bindWatchersKeys (hook : String) (keys : List String) : List String :=
  keys.filter (fun k => bindSelect hook k)

/-! ### Metadata store: createMeta (src/unnamed/part_000 lines 279-306)

`createMeta(parent)` builds the child as `Object.create(parent)` with own
`hooks`/`watchers` dictionaries whose per-key arrays are `slice()` copies
of the parent's.  Array mutation is what the contract is about, so arrays
live in an explicit heap: a meta object stores references (allocation
numbers) into the heap, `slice` allocates a fresh reference with the same
contents, and `push` mutates the heap cell behind a reference.  All other
meta properties are read through the prototype, i.e. the child yields the
parent's value for them. -/

structure Heap : Type where
  hookArrs : List (Nat × List HookDef)
  watchArrs : List (Nat × List Val)
  nextH : Nat
  nextW : Nat
deriving Repr

structure MetaObj : Type where
  props : List (String × Val)
  fields : List (String × Val)
  methods : List (String × Val)
  computed : List (String × Val)
  accessors : List (String × Val)
  mods : List (String × Val)
  hooks : List (String × Nat)
  watchers : List (String × Nat)
deriving Repr

/-- The per-key copy loop shared by the hooks and the watchers pass:
each array is `slice()`d into a freshly allocated cell. -/
def copyArrs {β : Type} : List (Nat × List β) → Nat → List (String × Nat) →
    List (Nat × List β) × Nat × List (String × Nat)
  | arrs, next, [] => (arrs, next, [])
  | arrs, next, (k, r) :: rest =>
    let c := (aget arrs r).getD []
    let step := copyArrs (arrs ++ [(next, c)]) (next + 1) rest
    (step.1, step.2.1, (k, next) :: step.2.2)

def createMeta (h : Heap) (parent : MetaObj) : Heap × MetaObj :=
  let sh := copyArrs h.hookArrs h.nextH parent.hooks
  let sw := copyArrs h.watchArrs h.nextW parent.watchers
  (⟨sh.1, sw.1, sh.2.1, sw.2.1⟩,
   { parent with hooks := sh.2.2, watchers := sw.2.2 })

/-- `meta.hooks[stage].push(hk)`: mutates the array cell the meta's
reference points at. -/
def pushHook (h : Heap) (m : MetaObj) (stage : String) (hk : HookDef) : Heap :=
  match aget m.hooks stage with
  | some r =>
    { h with hookArrs := aset h.hookArrs r (((aget h.hookArrs r).getD []) ++ [hk]) }
  | none => h

/-- `meta.watchers[key].push(w)`. -/
def pushWatcher (h : Heap) (m : MetaObj) (key : String) (w : Val) : Heap :=
  match aget m.watchers key with
  | some r =>
    { h with watchArrs := aset h.watchArrs r (((aget h.watchArrs r).getD []) ++ [w]) }
  | none => h

/-- Heap well-formedness: every allocated cell sits below the allocation
counter. -/
def HeapWF (h : Heap) : Prop :=
  (∀ p ∈ h.hookArrs, p.1 < h.nextH) ∧ ∀ p ∈ h.watchArrs, p.1 < h.nextW

/-- Meta well-formedness relative to a heap: every array reference held by
the meta is an already-allocated one. -/
def MetaWF (h : Heap) (m : MetaObj) : Prop :=
  (∀ p ∈ m.hooks, p.2 < h.nextH) ∧ ∀ p ∈ m.watchers, p.2 < h.nextW

/-! ### Claim C2 — the sweep can exit with a declared field uninitialized

Field map, in declaration order: `Y` (atom, no deps), `X` (atom, after Y),
`E` (non-atom, no init, default 5 — an "atom-like" field unshifted to the
front), `W` (atom, after Y).  The sorting pass yields the field list
`[W, E, X, Y]`.  In sweep 1, `W` and `X` block on `Y` and enter the atomic
queue, `E` is skipped because the atomic queue is non-empty (and, having no
`after` entries, it is never queued), `Y` initializes.  In sweep 2, `W`
initializes, `E` is skipped again (the atomic queue still holds `X`), `X`
initializes and empties both queues — so the loop exits with no entry for
`E`, although `E`'s dependency graph is trivially valid. -/

def exC2 : FieldMap :=
  [("Y", ⟨true, [], none, some (.prim 0)⟩),
   ("X", ⟨true, ["Y"], none, some (.prim 1)⟩),
   ("E", ⟨false, [], none, some (.prim 5)⟩),
   ("W", ⟨true, ["Y"], none, some (.prim 2)⟩)]

/-- C2: the claim fails on the code — for the valid (acyclic,
atomic-respecting, fully declared) field map `exC2`, initDataObject
terminates normally but the returned data object has no entry for the
declared field "E": the run drops a field, contradicting "exactly one
entry for every field in the map". -/
theorem initDataObject_drops_declared_field :
    initDataObject exC2 [] [] 5 =
      some (.ok [("Y", some (.prim 0)), ("W", some (.prim 2)), ("X", some (.prim 1))]) ∧
    (aget exC2 "E").isSome = true ∧
    aget [("Y", some (Val.prim 0)), ("W", some (Val.prim 2)), ("X", some (Val.prim 1))]
      "E" = none :=
  ⟨rfl, rfl, rfl⟩

/-! ### Claim C3 — a dependency cycle makes initDataObject loop forever -/

/-- The run never returns: at every fuel bound the `while (true)` sweep
loop is still going (it neither produced a data object nor threw). -/
def initNeverReturns (fields : FieldMap) : Prop :=
  ∀ fuel, initDataObject fields [] [] fuel = none

/-- Two non-atomic fields waiting on each other. -/
def exC3 : FieldMap :=
  [("a", ⟨false, ["b"], some (fun _ => some (.prim 1)), none⟩),
   ("b", ⟨false, ["a"], some (fun _ => some (.prim 2)), none⟩)]

def exC3st : DState := ⟨[], ["a", "b"], []⟩

theorem exC3_sweep_fix :
    sweep exC3 [] exC3st (fieldListOf [] exC3) = .ok exC3st := rfl

theorem exC3_loop_none :
    ∀ n, initLoop exC3 [] (fieldListOf [] exC3) n exC3st = none := by
  intro n
  induction n with
  | zero => rfl
  | succ n ih =>
    simp only [initLoop, exC3_sweep_fix]
    simpa [exC3st] using ih

/-- C3: the code loops forever on a dependency cycle instead of detecting
it — for the two-field cycle `exC3`, initDataObject makes no progress in
any sweep and never returns (no configuration error is ever thrown). -/
theorem initDataObject_cycle_diverges : initNeverReturns exC3 := by
  intro fuel
  cases fuel with
  | zero => rfl
  | succ n =>
    show initLoop exC3 [] (fieldListOf [] exC3) (n + 1) ⟨[], [], []⟩ = none
    have h1 : sweep exC3 [] ⟨[], [], []⟩ (fieldListOf [] exC3) = .ok exC3st := rfl
    simp only [initLoop, h1]
    simpa [exC3st] using exC3_loop_none n

/-! ### Claim C6 — init-undefined fallback: default is stored verbatim -/

/-- A field whose init returns `undefined`, with an object-valued static
default. -/
def exC6 : FieldMap := [("f", ⟨false, [], some (fun _ => none), some (.obj 0)⟩)]

/-- C6 counterexample: the static default is stored as-is, not deep-cloned
— the entry for "f" is the very default object (`obj 0`), which a deep
clone would not be. -/
theorem initDataObject_default_not_cloned :
    initDataObject exC6 [] [] 1 = some (.ok [("f", some (.obj 0))]) ∧
    Val.obj 0 ≠ fastClone (Val.obj 0) :=
  ⟨rfl, by decide⟩

/-- C6 (amended): for a dependency-free single-field map with the field
absent from the incoming data object, one sweep initializes it: a defined
init result is stored verbatim; an `undefined` init result falls back to
the static default stored verbatim when one is declared, and only
otherwise to a deep clone of the instance value. -/
theorem initDataObject_init_fallback (k : String) (el : FieldD)
    (inst : List (String × Val)) (data0 : DataMap)
    (ha : el.after = []) (hd : aget data0 k = none) :
    initDataObject [(k, el)] inst data0 1 =
      some (.ok (aset data0 k (
        match (match el.init with
               | some f => f data0
               | none => none) with
        | some v => some v
        | none =>
          match el.dflt with
          | some d => some d
          | none => (aget inst k).map fastClone))) := by
  have hfl : fieldListOf inst [(k, el)] = [k] := by
    simp [fieldListOf]
  have hget : aget [(k, el)] k = some el := by simp [aget]
  have hproc : processOne [(k, el)] inst ⟨data0, [], []⟩ k =
      .ok (initField inst ⟨data0, [], []⟩ k el) := by
    unfold processOne
    simp only [hd, hget, ha, checkAfter, Option.isSome_none, Bool.false_eq_true,
      if_false, List.isEmpty_nil, Bool.or_true, if_true]
  have hinit : initField inst ⟨data0, [], []⟩ k el =
      ⟨aset data0 k (
        match (match el.init with
               | some f => f data0
               | none => none) with
        | some v => some v
        | none =>
          match el.dflt with
          | some d => some d
          | none => (aget inst k).map fastClone), [], []⟩ := by
    unfold initField
    cases hi : el.init with
    | none => simp only [hd, List.erase_nil]
    | some f =>
      cases hv : f data0 with
      | none => simp only [hv, hd, List.erase_nil]
      | some v => simp only [hv, List.erase_nil]
  have hsweep : sweep [(k, el)] inst ⟨data0, [], []⟩ [k] =
      .ok (initField inst ⟨data0, [], []⟩ k el) := by
    simp only [sweep, hproc]
  unfold initDataObject
  rw [hfl]
  simp only [initLoop, hsweep, hinit, List.isEmpty_nil, Bool.and_self, if_true]

/-! ### Claims C7/C8 — a field whose dependency walk can never succeed

The shared core: if some field's `after` walk can never return `okAll`
(because it holds an undeclared reference, or an atom/non-atom violation),
that field is never initialized, so once visited it sits in the dependency
queue forever and the sweep loop can never exit normally. -/

theorem checkAfter_stuck_missing (fields : FieldMap) (el : FieldD) (m : String)
    (hmiss : aget fields m = none) :
    ∀ l, m ∈ l → ∀ key data, checkAfter fields el key data l ≠ .okAll := by
  intro l
  induction l with
  | nil => intro h; cases h
  | cons d rest ih =>
    intro hmem key data
    simp only [checkAfter]
    cases hdep : aget fields d with
    | none => simp
    | some w =>
      have hdm : m ∈ rest := by
        rcases List.mem_cons.mp hmem with h | h
        · subst h; rw [hmiss] at hdep; cases hdep
        · exact h
      by_cases hatom : (el.atom && !w.atom) = true
      · simp [hatom]
      · simp only [hatom, if_false]
        by_cases hdata : (aget data d).isNone = true
        · simp [hdata]
        · simp only [hdata, if_false]
          exact ih hdm key data

theorem checkAfter_stuck_atom (fields : FieldMap) (el : FieldD) (m : String) (w : FieldD)
    (hw : aget fields m = some w) (hel : el.atom = true) (hwa : w.atom = false) :
    ∀ l, m ∈ l → ∀ key data, checkAfter fields el key data l ≠ .okAll := by
  intro l
  induction l with
  | nil => intro h; cases h
  | cons d rest ih =>
    intro hmem key data
    simp only [checkAfter]
    cases hdep : aget fields d with
    | none => simp
    | some w' =>
      by_cases hatom : (el.atom && !w'.atom) = true
      · simp [hatom]
      · have hdm : m ∈ rest := by
          rcases List.mem_cons.mp hmem with h | h
          · subst h
            rw [hw] at hdep
            injection hdep with hww
            subst hww
            rw [hel, hwa] at hatom
            simp at hatom
          · exact h
        simp only [hatom, if_false]
        by_cases hdata : (aget data d).isNone = true
        · simp [hdata]
        · simp only [hdata, if_false]
          exact ih hdm key data

/-- Initializing a key only touches that key's binding in the data object. -/
theorem initField_data (inst : List (String × Val)) (st : DState) (key : String)
    (el : FieldD) :
    (initField inst st key el).data = st.data ∨
    ∃ v, (initField inst st key el).data = aset st.data key v := by
  unfold initField
  dsimp only
  cases el.init with
  | none =>
    dsimp only
    cases aget st.data key with
    | none => exact Or.inr ⟨_, rfl⟩
    | some o =>
      cases o with
      | none => exact Or.inr ⟨_, rfl⟩
      | some w => exact Or.inl rfl
  | some f =>
    dsimp only
    cases f st.data with
    | none =>
      cases aget st.data key with
      | none => exact Or.inr ⟨_, rfl⟩
      | some o =>
        cases o with
        | none => exact Or.inr ⟨_, rfl⟩
        | some w => exact Or.inl rfl
    | some v => exact Or.inr ⟨_, rfl⟩

/-- Initializing a key only removes that key from the dependency queue. -/
theorem initField_queue (inst : List (String × Val)) (st : DState) (key : String)
    (el : FieldD) : (initField inst st key el).queue = st.queue.erase key := by
  unfold initField
  dsimp only
  cases el.init with
  | none =>
    dsimp only
    cases aget st.data key with
    | none => rfl
    | some o => cases o <;> rfl
  | some f =>
    dsimp only
    cases f st.data with
    | none =>
      cases aget st.data key with
      | none => rfl
      | some o => cases o <;> rfl
    | some v => rfl

/-- Processing a different key preserves "f absent from data" and
"f queued". -/
theorem processOne_pres (fields : FieldMap) (inst : List (String × Val)) (st : DState)
    (k f : String) (hkf : f ≠ k) (st' : DState)
    (h : processOne fields inst st k = .ok st') :
    (aget st.data f = none → aget st'.data f = none) ∧
    (f ∈ st.queue → f ∈ st'.queue) := by
  unfold processOne at h
  by_cases hday : (aget st.data k).isSome = true
  · rw [if_pos hday] at h
    injection h with h
    subst h
    exact ⟨fun hh => hh, fun hh => hh⟩
  · rw [if_neg hday] at h
    cases hfk : aget fields k with
    | none =>
      rw [hfk] at h
      injection h with h
      subst h
      exact ⟨fun hh => hh, fun hh => hh⟩
    | some el =>
      rw [hfk] at h
      dsimp only at h
      cases hc : checkAfter fields el k st.data el.after with
      | err e => rw [hc] at h; cases h
      | blocked =>
        rw [hc] at h
        injection h with h
        subst h
        exact ⟨fun hh => hh, fun hh => mem_insertUniq _ _ _ hh⟩
      | okAll =>
        rw [hc] at h
        by_cases hcan : (el.atom || st.atomQueue.isEmpty) = true
        · rw [if_pos hcan] at h
          injection h with h
          subst h
          have hdata := initField_data inst st k el
          have hqueue := initField_queue inst st k el
          constructor
          · intro hf
            rcases hdata with hdd | ⟨v, hdd⟩
            · rw [hdd]; exact hf
            · rw [hdd, aget_aset_ne _ _ _ _ hkf]; exact hf
          · intro hf
            rw [hqueue]
            exact (List.mem_erase_of_ne hkf).mpr hf
        · rw [if_neg hcan] at h
          injection h with h
          subst h
          exact ⟨fun hh => hh, fun hh => hh⟩

/-- The sweep invariant: a field `f` whose dependency walk can never
succeed, and which is not yet in the data object, ends every sweep either
in a thrown error or still absent and queued. -/
theorem sweep_stuck (fields : FieldMap) (inst : List (String × Val)) (f : String)
    (el : FieldD) (hf : aget fields f = some el)
    (hstuck : ∀ key data, checkAfter fields el key data el.after ≠ .okAll) :
    ∀ l st, aget st.data f = none → (f ∈ l ∨ f ∈ st.queue) →
      (∃ e, sweep fields inst st l = .error e) ∨
      ∃ st', sweep fields inst st l = .ok st' ∧ aget st'.data f = none ∧
        f ∈ st'.queue := by
  intro l
  induction l with
  | nil =>
    intro st hdata hmem
    right
    refine ⟨st, rfl, hdata, ?_⟩
    rcases hmem with h | h
    · cases h
    · exact h
  | cons k ks ih =>
    intro st hdata hmem
    by_cases hkf : k = f
    · subst hkf
      have hproc : processOne fields inst st k =
          match checkAfter fields el k st.data el.after with
          | .err e => .error (e, st.data)
          | .blocked =>
            .ok ⟨st.data, insertUniq st.queue k,
                 if el.atom then insertUniq st.atomQueue k else st.atomQueue⟩
          | .okAll =>
            if el.atom || st.atomQueue.isEmpty then .ok (initField inst st k el)
            else .ok st := by
        unfold processOne
        rw [hdata, hf]
        rfl
      cases hc : checkAfter fields el k st.data el.after with
      | err e =>
        left
        refine ⟨(e, st.data), ?_⟩
        simp only [sweep]
        rw [hproc, hc]
      | blocked =>
        have hnext : sweep fields inst st (k :: ks) =
            sweep fields inst
              ⟨st.data, insertUniq st.queue k,
               if el.atom then insertUniq st.atomQueue k else st.atomQueue⟩ ks := by
          simp only [sweep]
          rw [hproc, hc]
        rw [hnext]
        exact ih _ hdata (Or.inr (self_mem_insertUniq _ _))
      | okAll => exact absurd hc (hstuck k st.data)
    · have hkf' : f ≠ k := fun hh => hkf hh.symm
      cases hp : processOne fields inst st k with
      | error e =>
        left
        refine ⟨e, ?_⟩
        simp only [sweep]
        rw [hp]
      | ok st1 =>
        have hnext : sweep fields inst st (k :: ks) = sweep fields inst st1 ks := by
          simp only [sweep]
          rw [hp]
        rw [hnext]
        obtain ⟨hd1, hq1⟩ := processOne_pres fields inst st k f hkf' st1 hp
        refine ih st1 (hd1 hdata) ?_
        rcases hmem with h | h
        · rcases List.mem_cons.mp h with h' | h'
          · exact absurd h'.symm hkf
          · exact Or.inl h'
        · exact Or.inr (hq1 h)

/-- The loop invariant: with such a stuck field on the sweep list, the loop
can never exit normally — every sweep leaves the queue non-empty. -/
theorem initLoop_stuck (fields : FieldMap) (inst : List (String × Val)) (f : String)
    (el : FieldD) (hf : aget fields f = some el)
    (hstuck : ∀ key data, checkAfter fields el key data el.after ≠ .okAll)
    (fl : List String) (hfl : f ∈ fl) :
    ∀ fuel st, aget st.data f = none → ∀ d,
      initLoop fields inst fl fuel st ≠ some (.ok d) := by
  intro fuel
  induction fuel with
  | zero => intro st _ d h; cases h
  | succ n ih =>
    intro st hdata d
    rcases sweep_stuck fields inst f el hf hstuck fl st hdata (Or.inl hfl) with
      ⟨e, hs⟩ | ⟨st', hs, hdata', hq⟩
    · simp only [initLoop, hs]
      intro h
      cases h
    · simp only [initLoop, hs]
      have hqn : st'.queue.isEmpty = false := by
        cases hq' : st'.queue with
        | nil => rw [hq'] at hq; cases hq
        | cons a l => rfl
      rw [hqn]
      simp only [Bool.and_false, Bool.false_eq_true, if_false]
      exact ih st' hdata' d

theorem mem_fieldListOf (inst : List (String × Val)) (fields : FieldMap) (x : String) :
    x ∈ fieldListOf inst fields ↔ x ∈ fields.map Prod.fst := by
  have key : ∀ (fs : FieldMap) (acc : List String),
      x ∈ fs.foldl
        (fun acc kv => if atomLike inst kv.1 kv.2 then kv.1 :: acc else acc ++ [kv.1])
        acc ↔ x ∈ acc ∨ x ∈ fs.map Prod.fst := by
    intro fs
    induction fs with
    | nil => intro acc; simp
    | cons kv rest ih =>
      intro acc
      simp only [List.foldl_cons, List.map_cons, List.mem_cons]
      rw [ih]
      by_cases hc : atomLike inst kv.1 kv.2 = true
      · rw [if_pos hc]
        simp only [List.mem_cons]
        tauto
      · rw [if_neg hc]
        simp only [List.mem_append, List.mem_singleton]
        tauto
  rw [fieldListOf, key]
  simp

theorem mem_map_fst_of_aget {κ α : Type} [DecidableEq κ] (l : List (κ × α)) (k : κ)
    (v : α) (h : aget l k = some v) : k ∈ l.map Prod.fst := by
  induction l with
  | nil => cases h
  | cons kv rest ih =>
    simp only [aget] at h
    by_cases hk : k = kv.1
    · simp [hk]
    · rw [if_neg hk] at h
      simp only [List.map_cons, List.mem_cons]
      exact Or.inr (ih h)

/-- C7 (amended): a field whose `after` set names an undeclared field
prevents initDataObject from ever completing normally — the missing-field
ReferenceError is thrown when the reference is examined during a sweep,
but if the walk never reaches it (because an earlier dependency of the
same field never resolves) the call hangs without raising; in no case does
the run complete or silently skip the field. -/
theorem initDataObject_missing_ref_never_ok (fields : FieldMap)
    (inst : List (String × Val)) (data0 : DataMap) (f m : String) (el : FieldD)
    (hf : aget fields f = some el) (hm : m ∈ el.after)
    (hmiss : aget fields m = none) (hd : aget data0 f = none)
    (fuel : Nat) (d : DataMap) :
    initDataObject fields inst data0 fuel ≠ some (.ok d) := by
  have hstuck : ∀ key data, checkAfter fields el key data el.after ≠ .okAll :=
    fun key data => checkAfter_stuck_missing fields el m hmiss el.after hm key data
  have hfl : f ∈ fieldListOf inst fields :=
    (mem_fieldListOf inst fields f).mpr (mem_map_fst_of_aget fields f el hf)
  exact initLoop_stuck fields inst f el hf hstuck (fieldListOf inst fields) hfl fuel
    ⟨data0, [], []⟩ hd d

/-- The field "f" waits on the cycle partner "g" before its undeclared
reference "m", so the walk never reaches "m". -/
def exC7 : FieldMap :=
  [("f", ⟨false, ["g", "m"], some (fun _ => some (.prim 1)), none⟩),
   ("g", ⟨false, ["f"], some (fun _ => some (.prim 2)), none⟩)]

def exC7st : DState := ⟨[], ["f", "g"], []⟩

theorem exC7_sweep_fix :
    sweep exC7 [] exC7st (fieldListOf [] exC7) = .ok exC7st := rfl

theorem exC7_loop_none :
    ∀ n, initLoop exC7 [] (fieldListOf [] exC7) n exC7st = none := by
  intro n
  induction n with
  | zero => rfl
  | succ n ih =>
    simp only [initLoop, exC7_sweep_fix]
    simpa [exC7st] using ih

/-- C7 counterexample: with the undeclared reference "m" shadowed behind a
never-resolving dependency, initDataObject raises no missing-field error —
it never returns at all. -/
theorem initDataObject_missing_ref_shadowed :
    initNeverReturns exC7 ∧ aget exC7 "m" = none := by
  refine ⟨?_, rfl⟩
  intro fuel
  cases fuel with
  | zero => rfl
  | succ n =>
    show initLoop exC7 [] (fieldListOf [] exC7) (n + 1) ⟨[], [], []⟩ = none
    have h1 : sweep exC7 [] ⟨[], [], []⟩ (fieldListOf [] exC7) = .ok exC7st := rfl
    simp only [initLoop, h1]
    simpa [exC7st] using exC7_loop_none n

/-- A single field with a directly examined undeclared reference. -/
def exC7s : FieldMap := [("f", ⟨false, ["m"], none, some (.prim 1)⟩)]

theorem initDataObject_missing_ref_witness :
    initDataObject exC7s [] [] 3 ≠ some (.ok []) ∧
    initDataObject exC7s [] [] 3 = some (.error (.missingField "f" "m", [])) :=
  ⟨initDataObject_missing_ref_never_ok exC7s [] [] "f" "m"
      ⟨false, ["m"], none, some (.prim 1)⟩ rfl (by decide) rfl rfl 3 [],
   rfl⟩

/-- C8 (amended): an atomic field whose `after` names a non-atomic field
prevents initDataObject from ever completing normally — the
ordering-violation error is raised when the reference is examined during a
sweep, at which point fields examined earlier in the sweep may already have
been initialized, so the data object need not be empty at the moment of
failure. -/
theorem initDataObject_atom_dep_never_ok (fields : FieldMap)
    (inst : List (String × Val)) (data0 : DataMap) (f m : String) (el w : FieldD)
    (hf : aget fields f = some el) (hel : el.atom = true) (hm : m ∈ el.after)
    (hw : aget fields m = some w) (hwa : w.atom = false) (hd : aget data0 f = none)
    (fuel : Nat) (d : DataMap) :
    initDataObject fields inst data0 fuel ≠ some (.ok d) := by
  have hstuck : ∀ key data, checkAfter fields el key data el.after ≠ .okAll :=
    fun key data => checkAfter_stuck_atom fields el m w hw hel hwa el.after hm key data
  have hfl : f ∈ fieldListOf inst fields :=
    (mem_fieldListOf inst fields f).mpr (mem_map_fst_of_aget fields f el hf)
  exact initLoop_stuck fields inst f el hf hstuck (fieldListOf inst fields) hfl fuel
    ⟨data0, [], []⟩ hd d

/-- Atom "b" (after the non-atom "n") is declared before atom "g", so the
unshift ordering puts "g" first in the field list and "g" initializes
before the sweep reaches "b" and throws. -/
def exC8 : FieldMap :=
  [("b", ⟨true, ["n"], none, some (.prim 0)⟩),
   ("g", ⟨true, [], none, some (.prim 1)⟩),
   ("n", ⟨false, [], some (fun _ => some (.prim 2)), none⟩)]

/-- C8 counterexample: the ordering-violation error is thrown only when
"b" is examined, and at that moment the data object already holds the
entry initialized for "g" — initialization did occur before the failure. -/
theorem initDataObject_atom_err_after_init :
    initDataObject exC8 [] [] 3 =
      some (.error (.atomDep "b" "n", [("g", some (.prim 1))])) ∧
    [("g", some (Val.prim 1))] ≠ ([] : DataMap) :=
  ⟨rfl, by decide⟩

theorem initDataObject_atom_dep_witness :
    initDataObject exC8 [] [] 4 ≠ some (.ok []) :=
  initDataObject_atom_dep_never_ok exC8 [] [] "b" "n"
    ⟨true, ["n"], none, some (.prim 0)⟩
    ⟨false, [], some (fun _ => some (.prim 2)), none⟩
    rfl rfl (by decide) rfl rfl rfl 4 []

theorem initDataObject_init_fallback_witness :
    initDataObject [("g", ⟨false, [], none, none⟩)] [("g", .obj 3)] [] 1 =
      some (.ok [("g", some (.clone (.obj 3)))]) :=
  initDataObject_init_fallback "g" ⟨false, [], none, none⟩ [("g", .obj 3)] [] rfl rfl

/-! ### Claim C5 — which watcher keys each lifecycle stage attaches -/

/-- C5 counterexample: during `mounted`, the ordinary reactive key "foo"
(no custom-watcher match) is not attached — only the `?`-marked key is, so
"mounted activates the mount-marked watchers plus ordinary reactive
watchers" fails on the code (ordinary keys are attached at `created`). -/
theorem bindWatchers_mounted_skips_plain :
    bindWatchersKeys "mounted" ["foo", "?bar:baz"] = ["?bar:baz"] ∧
    markerOf "foo" = none ∧ markerOf "?bar:baz" = some "?" :=
  ⟨rfl, rfl, rfl⟩

/-- C5 (amended): bindWatchers is a no-op unless the stage is beforeCreate,
created or mounted; beforeCreate attaches exactly the `!`-marked keys;
created attaches exactly the unmarked custom keys plus the ordinary
reactive (non-custom) keys; mounted attaches exactly the `?`-marked keys
(ordinary reactive watchers are attached at created, not at mounted); and
the three stages are pairwise disjoint, so no watcher bound at an earlier
stage is ever attached a second time. -/
theorem bindWatchers_stage_selection (key : String) (hook : String)
    (hforeign : hook ≠ "beforeCreate" ∧ hook ≠ "created" ∧ hook ≠ "mounted") :
    bindWatchersKeys hook [key] = [] ∧
    (bindSelect "beforeCreate" key = true ↔ markerOf key = some "!") ∧
    (bindSelect "created" key = true ↔
      (markerOf key ≠ some "!" ∧ markerOf key ≠ some "?")) ∧
    (bindSelect "mounted" key = true ↔ markerOf key = some "?") ∧
    (bindSelect "beforeCreate" key && bindSelect "created" key) = false ∧
    (bindSelect "beforeCreate" key && bindSelect "mounted" key) = false ∧
    (bindSelect "created" key && bindSelect "mounted" key) = false := by
  obtain ⟨h1, h2, h3⟩ := hforeign
  have hb : bindSelect "beforeCreate" key = true ↔ markerOf key = some "!" := by
    rcases hp : parseCustom key with _ | ⟨m, l, r⟩ <;>
      simp [bindSelect, markerOf, hp]
  have hc : bindSelect "created" key = true ↔
      (markerOf key ≠ some "!" ∧ markerOf key ≠ some "?") := by
    rcases hp : parseCustom key with _ | ⟨m, l, r⟩
    · simp [bindSelect, markerOf, hp]
    · simp [bindSelect, markerOf, hp]
      tauto
  have hm : bindSelect "mounted" key = true ↔ markerOf key = some "?" := by
    rcases hp : parseCustom key with _ | ⟨m, l, r⟩ <;>
      simp [bindSelect, markerOf, hp]
  refine ⟨?_, hb, hc, hm, ?_, ?_, ?_⟩
  · simp [bindWatchersKeys, bindSelect, h1, h2, h3]
  · cases hx : bindSelect "beforeCreate" key with
    | false => rfl
    | true =>
      cases hy : bindSelect "created" key with
      | false => rfl
      | true => exact absurd (hb.mp hx) (hc.mp hy).1
  · cases hx : bindSelect "beforeCreate" key with
    | false => rfl
    | true =>
      cases hy : bindSelect "mounted" key with
      | false => rfl
      | true =>
        rw [hb.mp hx] at hm
        exact absurd (hm.mp hy) (by decide)
  · cases hx : bindSelect "created" key with
    | false => rfl
    | true =>
      cases hy : bindSelect "mounted" key with
      | false => rfl
      | true => exact absurd (hm.mp hy) (hc.mp hx).2

theorem bindWatchers_stage_selection_witness :
    bindWatchersKeys "updated" ["foo"] = [] ∧
    (bindSelect "mounted" "foo" = true ↔ markerOf "foo" = some "?") := by
  have h := bindWatchers_stage_selection "foo" "updated" (by decide)
  exact ⟨h.1, h.2.2.2.1⟩

/-! ### Claims C9/C10 — the synchronous fast path of runHook -/

/-- C9: a stage with an empty registered hook list returns an
already-completed signal synchronously — the `.sync` result is produced
before any event machinery or asynchronous primitive is built, its error
slot is empty, and the returned object supports the then/catch/finally
contract (each operation is defined on it and yields another fake
promise). -/
theorem runHook_empty_sync (hooks : List HookDef) (h : hooks = [])
    (schedule : List Nat) (fuel : Nat) :
    runHookTop hooks schedule fuel = .sync (createSyncPromise none none) ∧
    (createSyncPromise none none).err = none ∧
    (∀ f, syncThen (createSyncPromise none none) (some f) none =
      createSyncPromise (f none) none) ∧
    (∀ cb, syncCatch (createSyncPromise none none) cb =
      createSyncPromise none (cb none)) ∧
    (∀ cb, syncFinally (createSyncPromise none none) cb =
      createSyncPromise (cb ()) none) := by
  subst h
  exact ⟨rfl, rfl, fun f => rfl, fun cb => rfl, fun cb => rfl⟩

theorem runHook_empty_sync_witness :
    runHookTop [] [3] 7 = .sync (createSyncPromise none none) :=
  (runHook_empty_sync [] rfl [3] 7).1

/-- C10: on the synchronous signal returned by runHook's empty-stage path,
`catch(cb)` invokes `cb` even though no error occurred, passing the
undefined error slot — the defining equation applies `cb` to `none`
unconditionally — whereas a real promise's catch leaves a fulfilled
promise untouched; hence the `.catch(stderr)` chained at the lifecycle
call sites fires on every successful synchronous stage run. -/
theorem syncCatch_invoked_on_success (hooks : List HookDef) (h : hooks = [])
    (schedule : List Nat) (fuel : Nat) (cb : Option Val → Option Val) :
    ∃ p, runHookTop hooks schedule fuel = .sync p ∧ p.err = none ∧
      syncCatch p cb = createSyncPromise none (cb none) ∧
      realCatch p cb = p := by
  subst h
  exact ⟨createSyncPromise none none, rfl, rfl, rfl, rfl⟩

theorem syncCatch_invoked_on_success_witness :
    ∃ p, runHookTop [] [] 0 = .sync p ∧ p.err = none ∧
      syncCatch p (fun _ => some (.prim 7)) =
        createSyncPromise none (some (.prim 7)) ∧
      realCatch p (fun _ => some (.prim 7)) = p :=
  syncCatch_invoked_on_success [] rfl [] 0 (fun _ => some (.prim 7))

/-! ### Claim C4 — list independence and read-through of createMeta -/

theorem aget_mem {κ α : Type} [DecidableEq κ] (l : List (κ × α)) (k : κ) (v : α)
    (h : aget l k = some v) : (k, v) ∈ l := by
  induction l with
  | nil => cases h
  | cons kv rest ih =>
    obtain ⟨k0, v0⟩ := kv
    simp only [aget] at h
    by_cases hk : k = k0
    · rw [if_pos hk] at h
      injection h with h
      subst hk
      subst h
      exact List.mem_cons_self _ _
    · rw [if_neg hk] at h
      exact List.mem_cons_of_mem _ (ih h)

theorem aget_append_single_ne {κ α : Type} [DecidableEq κ] (l : List (κ × α)) (a : κ)
    (c : α) (r : κ) (h : r ≠ a) : aget (l ++ [(a, c)]) r = aget l r := by
  induction l with
  | nil => simp [aget, h]
  | cons kv rest ih =>
    obtain ⟨k0, v0⟩ := kv
    by_cases hk : r = k0
    · simp [aget, hk]
    · simp only [List.cons_append, aget, if_neg hk]
      exact ih

theorem aget_append_single_self {κ α : Type} [DecidableEq κ] (l : List (κ × α)) (a : κ)
    (c : α) (hwf : ∀ p ∈ l, p.1 ≠ a) : aget (l ++ [(a, c)]) a = some c := by
  induction l with
  | nil => simp [aget]
  | cons kv rest ih =>
    obtain ⟨k0, v0⟩ := kv
    have hk : a ≠ k0 := fun hh => (hwf (k0, v0) (List.mem_cons_self _ _)) hh.symm
    simp only [List.cons_append, aget, if_neg hk]
    exact ih (fun p hp => hwf p (List.mem_cons_of_mem _ hp))

/-- Copying never touches cells below the allocation counter. -/
theorem copyArrs_preserve {β : Type} (l : List (String × Nat)) :
    ∀ (arrs : List (Nat × List β)) (next r : Nat), r < next →
      aget (copyArrs arrs next l).1 r = aget arrs r := by
  induction l with
  | nil => intro arrs next r _; rfl
  | cons kv rest ih =>
    intro arrs next r hr
    obtain ⟨k0, r0⟩ := kv
    show aget (copyArrs (arrs ++ [(next, (aget arrs r0).getD [])]) (next + 1) rest).1 r
      = aget arrs r
    rw [ih _ (next + 1) r (Nat.lt_succ_of_lt hr)]
    exact aget_append_single_ne _ _ _ _ (Nat.ne_of_lt hr)

/-- Every reference handed out by the copy is fresh. -/
theorem copyArrs_fresh {β : Type} (l : List (String × Nat)) :
    ∀ (arrs : List (Nat × List β)) (next : Nat) (p : String × Nat),
      p ∈ (copyArrs arrs next l).2.2 → next ≤ p.2 := by
  induction l with
  | nil => intro arrs next p hp; cases hp
  | cons kv rest ih =>
    intro arrs next p hp
    obtain ⟨k0, r0⟩ := kv
    rcases List.mem_cons.mp hp with hh | hh
    · subst hh; exact Nat.le_refl _
    · exact Nat.le_of_succ_le (ih _ (next + 1) p hh)

/-- The copied dictionary has the same keys as the source. -/
theorem copyArrs_keys {β : Type} (l : List (String × Nat)) :
    ∀ (arrs : List (Nat × List β)) (next : Nat) (k : String),
      (aget (copyArrs arrs next l).2.2 k).isSome = (aget l k).isSome := by
  induction l with
  | nil => intro arrs next k; rfl
  | cons kv rest ih =>
    intro arrs next k
    obtain ⟨k0, r0⟩ := kv
    by_cases hk : k = k0
    · simp [aget, hk]
    · show (aget ((k0, next) ::
        (copyArrs (arrs ++ [(next, (aget arrs r0).getD [])]) (next + 1) rest).2.2) k).isSome
        = (aget ((k0, r0) :: rest) k).isSome
      simp only [aget, if_neg hk]
      exact ih _ (next + 1) k

/-- Looking a key up in the copy finds a fresh cell holding exactly the
contents the source's reference had. -/
theorem copyArrs_lookup {β : Type} (l : List (String × Nat)) :
    ∀ (arrs : List (Nat × List β)) (next : Nat),
      (∀ p ∈ arrs, p.1 < next) → (∀ p ∈ l, p.2 < next) →
      ∀ k rc, aget (copyArrs arrs next l).2.2 k = some rc →
        ∃ rp, aget l k = some rp ∧
          aget (copyArrs arrs next l).1 rc = some ((aget arrs rp).getD []) := by
  induction l with
  | nil => intro arrs next _ _ k rc h; cases h
  | cons kv rest ih =>
    intro arrs next hwf hl k rc h
    obtain ⟨k0, r0⟩ := kv
    have hr0 : r0 < next := hl (k0, r0) (List.mem_cons_self _ _)
    by_cases hk : k = k0
    · refine ⟨r0, by simp [aget, hk], ?_⟩
      show aget (copyArrs (arrs ++ [(next, (aget arrs r0).getD [])]) (next + 1) rest).1 rc
        = some ((aget arrs r0).getD [])
      have hrc : rc = next := by
        have hh : aget ((k0, next) ::
            (copyArrs (arrs ++ [(next, (aget arrs r0).getD [])]) (next + 1) rest).2.2) k
            = some rc := h
        rw [show aget ((k0, next) ::
            (copyArrs (arrs ++ [(next, (aget arrs r0).getD [])]) (next + 1) rest).2.2) k
            = some next by simp [aget, hk]] at hh
        injection hh with hh
        exact hh.symm
      rw [hrc]
      rw [copyArrs_preserve rest _ (next + 1) next (Nat.lt_succ_self _)]
      exact aget_append_single_self _ _ _
        (fun p hp => Nat.ne_of_lt (hwf p hp))
    · have hh : aget (copyArrs (arrs ++ [(next, (aget arrs r0).getD [])]) (next + 1)
          rest).2.2 k = some rc := by
        have h' : aget ((k0, next) ::
            (copyArrs (arrs ++ [(next, (aget arrs r0).getD [])]) (next + 1) rest).2.2) k
            = some rc := h
        simpa [aget, if_neg hk] using h'
      have hwf' : ∀ p ∈ arrs ++ [(next, (aget arrs r0).getD [])], p.1 < next + 1 := by
        intro p hp
        rcases List.mem_append.mp hp with hpp | hpp
        · exact Nat.lt_succ_of_lt (hwf p hpp)
        · rw [List.mem_singleton] at hpp
          subst hpp
          exact Nat.lt_succ_self _
      have hl' : ∀ p ∈ rest, p.2 < next + 1 :=
        fun p hp => Nat.lt_succ_of_lt (hl p (List.mem_cons_of_mem _ hp))
      obtain ⟨rp, hrp, hcont⟩ := ih _ (next + 1) hwf' hl' k rc hh
      have hrpn : rp < next := hl (k, rp) (List.mem_cons_of_mem _ (aget_mem _ _ _ hrp))
      refine ⟨rp, by simp [aget, if_neg hk, hrp], ?_⟩
      show aget (copyArrs (arrs ++ [(next, (aget arrs r0).getD [])]) (next + 1) rest).1 rc
        = some ((aget arrs rp).getD [])
      rw [hcont, aget_append_single_ne _ _ _ _ (Nat.ne_of_lt hrpn)]

/-- C4: createMeta's child delegates every prop/field/method/computed/
accessor/mod read to the parent, its per-stage hook lists and per-key
watcher lists are independent copies with the parent's contents, and
pushing onto any of the child's lists leaves the parent's array cells
untouched. -/
theorem createMeta_independence (h : Heap) (parent : MetaObj)
    (hwf : HeapWF h) (hm : MetaWF h parent) :
    ((createMeta h parent).2.props = parent.props ∧
     (createMeta h parent).2.fields = parent.fields ∧
     (createMeta h parent).2.methods = parent.methods ∧
     (createMeta h parent).2.computed = parent.computed ∧
     (createMeta h parent).2.accessors = parent.accessors ∧
     (createMeta h parent).2.mods = parent.mods) ∧
    (∀ stage, (aget (createMeta h parent).2.hooks stage).isSome =
      (aget parent.hooks stage).isSome) ∧
    (∀ stage rc, aget (createMeta h parent).2.hooks stage = some rc →
      ∃ rp, aget parent.hooks stage = some rp ∧
        aget (createMeta h parent).1.hookArrs rc =
          some ((aget h.hookArrs rp).getD [])) ∧
    (∀ stage hk rp, aget parent.hooks stage = some rp →
      aget (pushHook (createMeta h parent).1 (createMeta h parent).2 stage hk).hookArrs
        rp = aget h.hookArrs rp) ∧
    (∀ key w rp, aget parent.watchers key = some rp →
      aget (pushWatcher (createMeta h parent).1 (createMeta h parent).2 key w).watchArrs
        rp = aget h.watchArrs rp) := by
  have e1 : (createMeta h parent).2.hooks =
      (copyArrs h.hookArrs h.nextH parent.hooks).2.2 := rfl
  have e2 : (createMeta h parent).1.hookArrs =
      (copyArrs h.hookArrs h.nextH parent.hooks).1 := rfl
  have e3 : (createMeta h parent).2.watchers =
      (copyArrs h.watchArrs h.nextW parent.watchers).2.2 := rfl
  have e4 : (createMeta h parent).1.watchArrs =
      (copyArrs h.watchArrs h.nextW parent.watchers).1 := rfl
  refine ⟨⟨rfl, rfl, rfl, rfl, rfl, rfl⟩, ?_, ?_, ?_, ?_⟩
  · intro stage
    rw [e1]
    exact copyArrs_keys parent.hooks h.hookArrs h.nextH stage
  · intro stage rc hrc
    rw [e1] at hrc
    rw [e2]
    exact copyArrs_lookup parent.hooks h.hookArrs h.nextH hwf.1 hm.1 stage rc hrc
  · intro stage hk rp hrp
    have hiso : (aget (createMeta h parent).2.hooks stage).isSome =
        (aget parent.hooks stage).isSome := by
      rw [e1]; exact copyArrs_keys parent.hooks h.hookArrs h.nextH stage
    rw [hrp] at hiso
    obtain ⟨rc, hrc⟩ := Option.isSome_iff_exists.mp hiso
    have hrpn : rp < h.nextH := hm.1 (stage, rp) (aget_mem _ _ _ hrp)
    have hrcn : h.nextH ≤ rc := by
      apply copyArrs_fresh parent.hooks h.hookArrs h.nextH (stage, rc)
      rw [← e1]
      exact aget_mem _ _ _ hrc
    have hne : rp ≠ rc := fun hh => absurd (hh ▸ hrpn) (Nat.not_lt_of_le hrcn)
    unfold pushHook
    rw [hrc]
    show aget (aset (createMeta h parent).1.hookArrs rc
      (((aget (createMeta h parent).1.hookArrs rc).getD []) ++ [hk])) rp
      = aget h.hookArrs rp
    rw [aget_aset_ne _ _ _ _ hne, e2]
    exact copyArrs_preserve parent.hooks h.hookArrs h.nextH rp hrpn
  · intro key w rp hrp
    have hiso : (aget (createMeta h parent).2.watchers key).isSome =
        (aget parent.watchers key).isSome := by
      rw [e3]; exact copyArrs_keys parent.watchers h.watchArrs h.nextW key
    rw [hrp] at hiso
    obtain ⟨rc, hrc⟩ := Option.isSome_iff_exists.mp hiso
    have hrpn : rp < h.nextW := hm.2 (key, rp) (aget_mem _ _ _ hrp)
    have hrcn : h.nextW ≤ rc := by
      apply copyArrs_fresh parent.watchers h.watchArrs h.nextW (key, rc)
      rw [← e3]
      exact aget_mem _ _ _ hrc
    have hne : rp ≠ rc := fun hh => absurd (hh ▸ hrpn) (Nat.not_lt_of_le hrcn)
    unfold pushWatcher
    rw [hrc]
    show aget (aset (createMeta h parent).1.watchArrs rc
      (((aget (createMeta h parent).1.watchArrs rc).getD []) ++ [w])) rp
      = aget h.watchArrs rp
    rw [aget_aset_ne _ _ _ _ hne, e4]
    exact copyArrs_preserve parent.watchers h.watchArrs h.nextW rp hrpn

def exHeap : Heap := ⟨[(0, [⟨some "h1", [], false⟩])], [(0, [Val.prim 9])], 1, 1⟩

def exParent : MetaObj :=
  ⟨[("p", .prim 1)], [], [], [], [], [], [("created", 0)], [("k", 0)]⟩

theorem createMeta_independence_witness :
    aget (pushHook (createMeta exHeap exParent).1 (createMeta exHeap exParent).2
        "created" ⟨some "h2", [], false⟩).hookArrs 0 = aget exHeap.hookArrs 0 ∧
    (createMeta exHeap exParent).2.props = exParent.props := by
  have hwf : HeapWF exHeap := by
    unfold HeapWF exHeap
    exact ⟨by decide, by decide⟩
  have hm : MetaWF exHeap exParent := by
    unfold MetaWF exHeap exParent
    exact ⟨by decide, by decide⟩
  have hthm := createMeta_independence exHeap exParent hwf hm
  exact ⟨hthm.2.2.2.1 "created" ⟨some "h2", [], false⟩ 0 rfl, hthm.1.1⟩

/-! ### Claim C1 — dependency-gated hook execution order

The invariant: `Binv` says every predecessor name a hook still owes is
either still in its pending set or already completed somewhere in the
trace; `Tinv` says every `start` event in the trace is preceded by a
`complete` event of a hook carrying each name the started hook waits on.
Both are established at registration and preserved by every machine step,
because a name is only ever deleted from a pending set by `emit`, and
`emit` fires only right after the completion of a hook with that name. -/

def nameOf (hooks : List HookDef) (j : Nat) : Option String :=
  (hooks[j]?).bind (fun el => el.name)

def afterOf (hooks : List HookDef) (i : Nat) : List String :=
  ((hooks[i]?).map (fun el => el.after)).getD []

def completedIn (hooks : List HookDef) (tr : List HEv) (a : String) : Prop :=
  ∃ j, HEv.complete j ∈ tr ∧ nameOf hooks j = some a

def Binv (hooks : List HookDef) (st : RH) : Prop :=
  ∀ i a, a ∈ afterOf hooks i →
    a ∈ (aget st.pend i).getD [] ∨ completedIn hooks st.trace a

def Tinv (hooks : List HookDef) (tr : List HEv) : Prop :=
  ∀ t i : Nat, tr[t]? = some (HEv.start i) → ∀ a ∈ afterOf hooks i,
    ∃ s : Nat, s < t ∧ ∃ j : Nat, tr[s]? = some (HEv.complete j) ∧
      nameOf hooks j = some a

def Iinv (hooks : List HookDef) (st : RH) : Prop :=
  Binv hooks st ∧ Tinv hooks st.trace

theorem completedIn_append (hooks : List HookDef) (tr ext : List HEv) (a : String)
    (h : completedIn hooks tr a) : completedIn hooks (tr ++ ext) a := by
  obtain ⟨j, hj, hn⟩ := h
  exact ⟨j, List.mem_append_left _ hj, hn⟩

theorem Binv_trace_mono (hooks : List HookDef) (st : RH) (ext : List HEv)
    (h : Binv hooks st) : Binv hooks { st with trace := st.trace ++ ext } := by
  intro i a ha
  rcases h i a ha with hh | hh
  · exact Or.inl hh
  · exact Or.inr (completedIn_append hooks _ ext a hh)

theorem Tinv_append_complete (hooks : List HookDef) (tr : List HEv) (j : Nat)
    (h : Tinv hooks tr) : Tinv hooks (tr ++ [.complete j]) := by
  unfold Tinv
  intro t i ht a ha
  by_cases htl : t < tr.length
  · rw [List.getElem?_append_left htl] at ht
    obtain ⟨s, hs, j', hj', hn⟩ := h t i ht a ha
    refine ⟨s, hs, j', ?_, hn⟩
    rw [List.getElem?_append_left (Nat.lt_trans hs htl)]
    exact hj'
  · rw [List.getElem?_append_right (Nat.le_of_not_lt htl)] at ht
    rcases hd : t - tr.length with _ | u
    · rw [hd] at ht
      cases ht
    · rw [hd] at ht
      simp at ht

theorem Tinv_append_start (hooks : List HookDef) (tr : List HEv) (i : Nat)
    (h : Tinv hooks tr) (hc : ∀ a ∈ afterOf hooks i, completedIn hooks tr a) :
    Tinv hooks (tr ++ [.start i]) := by
  unfold Tinv
  intro t i' ht a ha
  by_cases htl : t < tr.length
  · rw [List.getElem?_append_left htl] at ht
    obtain ⟨s, hs, j', hj', hn⟩ := h t i' ht a ha
    refine ⟨s, hs, j', ?_, hn⟩
    rw [List.getElem?_append_left (Nat.lt_trans hs htl)]
    exact hj'
  · rw [List.getElem?_append_right (Nat.le_of_not_lt htl)] at ht
    rcases hd : t - tr.length with _ | u
    · rw [hd] at ht
      have hti : i' = i := by
        have : ([HEv.start i])[0]? = some (HEv.start i) := rfl
        rw [this] at ht
        injection ht with ht
        cases ht
        rfl
      subst hti
      have hte : tr.length ≤ t := Nat.le_of_not_lt htl
      obtain ⟨j, hj, hn⟩ := hc a ha
      obtain ⟨s, hsl, hse⟩ := List.mem_iff_getElem.mp hj
      refine ⟨s, ?_, j, ?_, hn⟩
      · exact Nat.lt_of_lt_of_le hsl hte
      · rw [List.getElem?_append_left hsl, List.getElem?_eq_getElem hsl]
        exact congrArg some hse
    · rw [hd] at ht
      simp at ht

/-- Every entry of the position-indexed enumeration is a real hook. -/
theorem enumT_wf {α : Type} (l : List α) :
    ∀ (s : Nat) (p : Nat × α), p ∈ enumT s l → ∃ k, k < l.length ∧ p.1 = s + k ∧
      l[k]? = some p.2 := by
  induction l with
  | nil => intro s p hp; cases hp
  | cons x rest ih =>
    intro s p hp
    rcases List.mem_cons.mp hp with hh | hh
    · subst hh
      exact ⟨0, Nat.succ_pos _, by omega, by simp⟩
    · obtain ⟨k, hk, hpk, hget⟩ := ih (s + 1) p hh
      refine ⟨k + 1, Nat.succ_lt_succ hk, by omega, ?_⟩
      simpa using hget

theorem runCbWith_trace (emit : String → RH → RH)
    (hemit : ∀ nm st, ∃ e, (emit nm st).trace = st.trace ++ e)
    (i : Nat) (el : HookDef) (st : RH) :
    ∃ e, (runCbWith emit i el st).trace = st.trace ++ e := by
  unfold runCbWith
  dsimp only
  by_cases ha : el.isAsync = true
  · rw [if_pos ha]
    exact ⟨[.start i], rfl⟩
  · rw [if_neg ha]
    cases hn : el.name with
    | none => exact ⟨[.start i, .complete i], by simp⟩
    | some nm =>
      obtain ⟨e, he⟩ := hemit nm
        { st with trace := st.trace ++ [.start i] ++ [.complete i] }
      exact ⟨[.start i, .complete i] ++ e, by rw [he]; simp⟩

theorem emitListWith_trace (emit : String → RH → RH)
    (hemit : ∀ nm st, ∃ e, (emit nm st).trace = st.trace ++ e) (nm : String) :
    ∀ (l : List (Nat × HookDef)) (st : RH),
      ∃ e, (emitListWith emit nm l st).trace = st.trace ++ e := by
  intro l
  induction l with
  | nil => intro st; exact ⟨[], by simp [emitListWith]⟩
  | cons p rest ih =>
    intro st
    obtain ⟨i, el⟩ := p
    show ∃ e, (emitListWith emit nm ((i, el) :: rest) st).trace = st.trace ++ e
    unfold emitListWith
    by_cases hmem : nm ∈ el.after
    · rw [if_pos hmem]
      dsimp only
      by_cases hempty : (((aget st.pend i).getD []).erase nm).isEmpty = true
      · rw [if_pos hempty]
        obtain ⟨e1, he1⟩ := runCbWith_trace emit hemit i el
          { st with pend := aset st.pend i (((aget st.pend i).getD []).erase nm) }
        obtain ⟨e2, he2⟩ := ih (runCbWith emit i el
          { st with pend := aset st.pend i (((aget st.pend i).getD []).erase nm) })
        exact ⟨e1 ++ e2, by rw [he2, he1]; simp⟩
      · rw [if_neg hempty]
        exact ih _
    · rw [if_neg hmem]
      exact ih st

theorem emitN_trace (hooks : List HookDef) :
    ∀ (f : Nat) (nm : String) (st : RH),
      ∃ e, (emitN hooks f nm st).trace = st.trace ++ e := by
  intro f
  induction f with
  | zero => intro nm st; exact ⟨[], by simp [emitN]⟩
  | succ f ih =>
    intro nm st
    show ∃ e, (emitListWith (emitN hooks f) nm (enumT 0 hooks) st).trace = st.trace ++ e
    exact emitListWith_trace (emitN hooks f) (fun nm' st' => ih nm' st') nm
      (enumT 0 hooks) st

theorem runCbWith_inv (hooks : List HookDef) (emit : String → RH → RH)
    (hemit : ∀ nm st, Iinv hooks st → completedIn hooks st.trace nm →
      Iinv hooks (emit nm st))
    (i : Nat) (el : HookDef) (st : RH) (hget : hooks[i]? = some el)
    (hpre : el.after = [] ∨ (aget st.pend i).getD [] = [])
    (hinv : Iinv hooks st) : Iinv hooks (runCbWith emit i el st) := by
  have hafter : afterOf hooks i = el.after := by
    unfold afterOf
    rw [hget]
    rfl
  have hc : ∀ a ∈ afterOf hooks i, completedIn hooks st.trace a := by
    intro a ha
    rcases hpre with hp | hp
    · rw [hafter, hp] at ha
      cases ha
    · rcases hinv.1 i a ha with hh | hh
      · rw [hp] at hh
        cases hh
      · exact hh
  have hinv1 : Iinv hooks { st with trace := st.trace ++ [.start i] } :=
    ⟨Binv_trace_mono hooks st [.start i] hinv.1,
     Tinv_append_start hooks st.trace i hinv.2 hc⟩
  have hinv2 : Iinv hooks { st with trace := st.trace ++ [.start i] ++ [.complete i] } :=
    ⟨Binv_trace_mono hooks { st with trace := st.trace ++ [.start i] } [.complete i]
       hinv1.1,
     Tinv_append_complete hooks (st.trace ++ [.start i]) i hinv1.2⟩
  unfold runCbWith
  dsimp only
  by_cases ha : el.isAsync = true
  · rw [if_pos ha]
    exact ⟨hinv1.1, hinv1.2⟩
  · rw [if_neg ha]
    cases hn : el.name with
    | none => exact hinv2
    | some nm =>
      apply hemit nm _ hinv2
      exact ⟨i, by simp, by simp [nameOf, hget, hn]⟩

theorem emitListWith_inv (hooks : List HookDef) (emit : String → RH → RH)
    (hemit : ∀ nm st, Iinv hooks st → completedIn hooks st.trace nm →
      Iinv hooks (emit nm st))
    (hemitt : ∀ nm st, ∃ e, (emit nm st).trace = st.trace ++ e) (nm : String) :
    ∀ (l : List (Nat × HookDef)) (st : RH),
      (∀ p ∈ l, hooks[p.1]? = some p.2) →
      Iinv hooks st → completedIn hooks st.trace nm →
      Iinv hooks (emitListWith emit nm l st) := by
  intro l
  induction l with
  | nil => intro st _ hinv _; exact hinv
  | cons p rest ih =>
    intro st hwf hinv hcomp
    obtain ⟨i, el⟩ := p
    have hgi : hooks[i]? = some el := hwf (i, el) (List.mem_cons_self _ _)
    have hwfr : ∀ p ∈ rest, hooks[p.1]? = some p.2 :=
      fun p hp => hwf p (List.mem_cons_of_mem _ hp)
    show Iinv hooks (emitListWith emit nm ((i, el) :: rest) st)
    unfold emitListWith
    by_cases hmem : nm ∈ el.after
    · rw [if_pos hmem]
      dsimp only
      have hinv' : Iinv hooks
          { st with pend := aset st.pend i (((aget st.pend i).getD []).erase nm) } := by
        constructor
        · intro i' a ha
          by_cases hii : i' = i
          · subst hii
            rcases hinv.1 i' a ha with hh | hh
            · by_cases hanm : a = nm
              · subst hanm
                exact Or.inr hcomp
              · left
                show a ∈ (aget (aset st.pend i'
                    (((aget st.pend i').getD []).erase nm)) i').getD []
                rw [aget_aset_self]
                exact (List.mem_erase_of_ne hanm).mpr hh
            · exact Or.inr hh
          · rcases hinv.1 i' a ha with hh | hh
            · left
              show a ∈ (aget (aset st.pend i
                  (((aget st.pend i).getD []).erase nm)) i').getD []
              rw [aget_aset_ne _ _ _ _ hii]
              exact hh
            · exact Or.inr hh
        · exact hinv.2
      by_cases hempty : (((aget st.pend i).getD []).erase nm).isEmpty = true
      · rw [if_pos hempty]
        have hpre : el.after = [] ∨
            (aget (aset st.pend i (((aget st.pend i).getD []).erase nm)) i).getD []
              = [] := by
          right
          rw [aget_aset_self]
          exact List.isEmpty_iff.mp hempty
        have hinv'' := runCbWith_inv hooks emit hemit i el _ hgi hpre hinv'
        obtain ⟨e, het⟩ := runCbWith_trace emit hemitt i el
          { st with pend := aset st.pend i (((aget st.pend i).getD []).erase nm) }
        refine ih _ hwfr hinv'' ?_
        rw [het]
        exact completedIn_append hooks _ e nm hcomp
      · rw [if_neg hempty]
        exact ih _ hwfr hinv' hcomp
    · rw [if_neg hmem]
      exact ih st hwfr hinv hcomp

theorem emitN_inv (hooks : List HookDef) :
    ∀ (f : Nat) (nm : String) (st : RH),
      Iinv hooks st → completedIn hooks st.trace nm →
      Iinv hooks (emitN hooks f nm st) := by
  intro f
  induction f with
  | zero => intro nm st hinv _; exact hinv
  | succ f ih =>
    intro nm st hinv hcomp
    show Iinv hooks (emitListWith (emitN hooks f) nm (enumT 0 hooks) st)
    refine emitListWith_inv hooks (emitN hooks f) (fun nm' st' => ih nm' st')
      (fun nm' st' => emitN_trace hooks f nm' st') nm (enumT 0 hooks) st ?_ hinv hcomp
    intro p hp
    obtain ⟨k, hk, hpk, hget⟩ := enumT_wf hooks 0 p hp
    rw [hpk, Nat.zero_add]
    exact hget

theorem fireList_inv (hooks : List HookDef) (fuel : Nat) :
    ∀ (l : List (Nat × HookDef)) (st : RH),
      (∀ p ∈ l, hooks[p.1]? = some p.2) → Iinv hooks st →
      Iinv hooks (fireList hooks fuel l st) := by
  intro l
  induction l with
  | nil => intro st _ h; exact h
  | cons p rest ih =>
    intro st hwf hinv
    obtain ⟨i, el⟩ := p
    show Iinv hooks (fireList hooks fuel ((i, el) :: rest) st)
    unfold fireList
    by_cases hae : el.after.isEmpty = true
    · rw [if_pos hae]
      refine ih _ (fun p hp => hwf p (List.mem_cons_of_mem _ hp)) ?_
      exact runCbWith_inv hooks (emitN hooks fuel)
        (fun nm st' hi hc => emitN_inv hooks fuel nm st' hi hc)
        i el st (hwf (i, el) (List.mem_cons_self _ _))
        (Or.inl (List.isEmpty_iff.mp hae)) hinv
    · rw [if_neg hae]
      exact ih _ (fun p hp => hwf p (List.mem_cons_of_mem _ hp)) hinv

theorem resolveOne_inv (hooks : List HookDef) (fuel : Nat) (st : RH) (i : Nat)
    (hinv : Iinv hooks st) : Iinv hooks (resolveOne hooks fuel st i) := by
  unfold resolveOne
  by_cases hw : i ∈ st.waitingAsync
  · rw [if_pos hw]
    dsimp only
    have hinv1 : Iinv hooks
        (RH.mk st.pend (st.waitingAsync.erase i) (st.trace ++ [.complete i])) := by
      constructor
      · intro i' a ha
        rcases hinv.1 i' a ha with hh | hh
        · exact Or.inl hh
        · exact Or.inr (completedIn_append hooks _ _ a hh)
      · exact Tinv_append_complete hooks st.trace i hinv.2
    cases hn : (hooks[i]?).bind (fun el => el.name) with
    | none => exact hinv1
    | some nm =>
      apply emitN_inv hooks fuel nm _ hinv1
      exact ⟨i, by simp, hn⟩
  · rw [if_neg hw]
    exact hinv

theorem schedule_inv (hooks : List HookDef) (fuel : Nat) :
    ∀ (schedule : List Nat) (st : RH), Iinv hooks st →
      Iinv hooks (schedule.foldl (fun st i => resolveOne hooks fuel st i) st) := by
  intro schedule
  induction schedule with
  | nil => intro st h; exact h
  | cons i rest ih =>
    intro st h
    exact ih _ (resolveOne_inv hooks fuel st i h)

theorem pendInit_aget (hooks : List HookDef) (i : Nat) (el : HookDef)
    (h : hooks[i]? = some el) : aget (pendInit hooks) i = some el.after := by
  have key : ∀ (l : List HookDef) (s k : Nat) (el : HookDef), l[k]? = some el →
      aget ((enumT s l).map (fun p => (p.1, p.2.after))) (s + k) = some el.after := by
    intro l
    induction l with
    | nil => intro s k el h; simp at h
    | cons x rest ih =>
      intro s k el h
      cases k with
      | zero =>
        have hx : x = el := by
          have hh : some x = some el := by simpa using h
          injection hh
        subst hx
        show aget ((s, x.after) :: (enumT (s + 1) rest).map (fun p => (p.1, p.2.after)))
          (s + 0) = some x.after
        simp [aget]
      | succ k =>
        have hne : s + (k + 1) ≠ s := by omega
        show aget ((s, x.after) :: (enumT (s + 1) rest).map (fun p => (p.1, p.2.after)))
          (s + (k + 1)) = some el.after
        simp only [aget, if_neg hne]
        have hrest : rest[k]? = some el := by simpa using h
        have := ih (s + 1) k el hrest
        rw [show s + 1 + k = s + (k + 1) by omega] at this
        exact this
  have := key hooks 0 i el h
  simpa using this

theorem init_inv (hooks : List HookDef) : Iinv hooks ⟨pendInit hooks, [], []⟩ := by
  constructor
  · intro i a ha
    left
    have hsome : ∃ el, hooks[i]? = some el := by
      unfold afterOf at ha
      cases hg : hooks[i]? with
      | none => rw [hg] at ha; cases ha
      | some el => exact ⟨el, rfl⟩
    obtain ⟨el, hel⟩ := hsome
    have hpend : aget (pendInit hooks) i = some el.after := pendInit_aget hooks i el hel
    show a ∈ (aget (pendInit hooks) i).getD []
    rw [hpend]
    unfold afterOf at ha
    rw [hel] at ha
    exact ha
  · intro t i ht
    simp at ht

/-- C1: within one stage invocation of runHook, a hook whose `after` set is
non-empty starts only after, for every name in that set, a hook carrying
that name has completed — including when the predecessor's callback
returned a deferred value, whatever the order in which pending promises
resolve; hooks with an empty `after` set are collected into the default
queue and fired eagerly at invocation start.  Stated on the machine's event
trace: every `start` of hook `i` is preceded by a `complete` of a hook
named `a`, for each `a` in `i`'s after set. -/
theorem runHook_after_ordering (hooks : List HookDef) (schedule : List Nat)
    (fuel t i : Nat)
    (hstart : (runHookMachine hooks schedule fuel).trace[t]? = some (HEv.start i)) :
    ∀ a ∈ afterOf hooks i, ∃ s : Nat, s < t ∧ ∃ j : Nat,
      (runHookMachine hooks schedule fuel).trace[s]? = some (HEv.complete j) ∧
      nameOf hooks j = some a := by
  have hwf : ∀ p ∈ enumT 0 hooks, hooks[p.1]? = some p.2 := by
    intro p hp
    obtain ⟨k, hk, hpk, hget⟩ := enumT_wf hooks 0 p hp
    rw [hpk, Nat.zero_add]
    exact hget
  have hinv : Iinv hooks (runHookMachine hooks schedule fuel) := by
    unfold runHookMachine
    exact schedule_inv hooks fuel schedule _
      (fireList_inv hooks fuel (enumT 0 hooks) ⟨pendInit hooks, [], []⟩ hwf
        (init_inv hooks))
  exact fun a ha => hinv.2 t i hstart a ha

/-- Hooks A (async, no deps), B (after {A}), C (after {A}) of the spec's
runHook scenario. -/
def exHooks : List HookDef :=
  [⟨some "a", [], true⟩, ⟨some "b", ["a"], false⟩, ⟨some "c", ["a"], false⟩]

theorem runHook_after_ordering_witness :
    (runHookMachine exHooks [0] 5).trace =
      [.start 0, .complete 0, .start 1, .complete 1, .start 2, .complete 2] ∧
    (∃ s : Nat, s < 2 ∧ ∃ j : Nat,
      (runHookMachine exHooks [0] 5).trace[s]? = some (HEv.complete j) ∧
      nameOf exHooks j = some "a") :=
  ⟨rfl, runHook_after_ordering exHooks [0] 5 2 1 rfl "a" (by decide)⟩
